import Mathlib

/-!
Shallow embedding of `khmer/_version.py` (versioneer-0.14).

Strings are modelled as `List Char`.  Python `re` character classes are
modelled over the ASCII inputs the module handles: `\d` is `'0'-'9'` and
`[0-9a-f]` is lowercase hex.  Python dictionaries returned by the resolvers
are modelled as `Option` of a record (the empty dict `{}` / `None`, both
falsy, become `none`); a `KeyError` raised on dictionary access is modelled
with `Except Unit`.  The subprocess and filesystem environment of
`git_versions_from_vcs` / `get_versions` is passed explicitly as a record of
the observable outcomes (presence of `.git`, the stripped stdout of the two
git invocations or `none` for a failed command, resolvability of
`__file__`, and the basename of the computed root directory).
-/

namespace Versioneer

/-- ASCII decimal digit, the `\d` class of the describe regex. -/
def isDigitC (c : Char) : Bool := '0' ≤ c && c ≤ '9'

/-- Lowercase hexadecimal digit, the `[0-9a-f]` class of the describe regex. -/
def isHexLower (c : Char) : Bool := isDigitC c || ('a' ≤ c && c ≤ 'f')

/-- Whitespace characters stripped by Python's `str.strip()`. -/
def isPySpace (c : Char) : Bool :=
  c = ' ' || c = '\t' || c = '\n' || c = '\r' || c = '\x0b' || c = '\x0c'

/-- Python `str.strip()`: remove leading and trailing whitespace. -/
def pyStrip (l : List Char) : List Char :=
  ((l.dropWhile isPySpace).reverse.dropWhile isPySpace).reverse

/-- Parenthesis characters, for Python `str.strip("()")`. -/
def isParen (c : Char) : Bool := c = '(' || c = ')'

/-- Python `str.strip("()")`: remove leading and trailing parens. -/
def pyStripParens (l : List Char) : List Char :=
  ((l.dropWhile isParen).reverse.dropWhile isParen).reverse

/-- Python `str.split(sep)` for a one-character separator: always returns at
least one (possibly empty) piece. -/
def pySplit (sep : Char) : List Char → List (List Char)
  | [] => [[]]
  | c :: rest =>
    let r := pySplit sep rest
    if c = sep then [] :: r
    else
      match r with
      | [] => [[c]]
      | h :: t => (c :: h) :: t

/-- Python decimal value of a digit string, `int(ds)`. -/
def digitsVal (l : List Char) : Nat :=
  l.foldl (fun a c => 10 * a + (c.toNat - 48)) 0

/-- Strict lexicographic comparison of strings by code point, as used by
Python `sorted` on `str`. -/
def lexLt : List Char → List Char → Bool
  | [], [] => false
  | [], _ :: _ => true
  | _ :: _, [] => false
  | a :: as, b :: bs => if a < b then true else if b < a then false else lexLt as bs

/-- Insert a string into a lexicographically sorted list of strings. -/
def insertSortedStr (x : List Char) : List (List Char) → List (List Char)
  | [] => [x]
  | h :: t => if lexLt x h then x :: h :: t else h :: insertSortedStr x t

/-- Insertion sort by code-point order: the model of Python `sorted`. -/
def sortStrs : List (List Char) → List (List Char)
  | [] => []
  | h :: t => insertSortedStr h (sortStrs t)

/-- Keep the first occurrence of each string: Python `set(...)` is modelled
as deduplication before the sorted iteration (set iteration order is
irrelevant because the set is only emptiness-tested and `sorted`). -/
def dedupAux (seen : List (List Char)) : List (List Char) → List (List Char)
  | [] => []
  | r :: rest => if r ∈ seen then dedupAux seen rest else r :: dedupAux (r :: seen) rest

def dedupStrs (l : List (List Char)) : List (List Char) := dedupAux [] l

/-- Result record for the resolvers: the Python dict
`{"version": ..., "full": ...}`.  `version` is an `Option` because
`git_parse_vcs_describe` can put `None` in the `version` slot. -/
structure VInfo where
  version : Option (List Char)
  full : List Char
deriving DecidableEq, Repr

/-- A keywords dictionary as built by `git_get_keywords`: each key may be
absent. -/
structure KeywordsRec where
  refnames : Option (List Char)
  full : Option (List Char)
deriving DecidableEq, Repr

/-- The `tag_prefix` module constant of `_version.py`. -/
def tag_pfx : List Char := "v".toList

/-- The `parentdir_prefix` module constant of `_version.py`. -/
def parentdir_pfx : List Char := ".".toList

/-! ### versions_from_parentdir -/

/-- Model of `versions_from_parentdir`; `dirname` stands for
`os.path.basename(root)`. -/
def versions_from_parentdir (pfx dirname : List Char) : Option VInfo :=
  if pfx.isPrefixOf dirname then some ⟨some (dirname.drop pfx.length), []⟩
  else none

/-! ### The describe parser

The regex `^(.+)-(\d+)-g([0-9a-f]+)$` is modelled by trying every split
point for the greedy group `(.+)` from the longest prefix down (`matchFrom`),
checking at each split that the remainder is `-<digits>-g<hex>` with the
digit group maximal (`parseTail`), exactly as the backtracking regex engine
resolves this pattern.  `.` does not match a newline. -/

/-- Match `-<digits>-g<hex>` against the whole remainder, greedy in the
digit group (backtracking cannot shorten a maximal digit run, because the
character after a shorter run would still be a digit, not `-`). -/
def parseTail (t : List Char) : Option (List Char × List Char) :=
  match t with
  | [] => none
  | c :: rest =>
    if c = '-' then
      if (rest.takeWhile isDigitC).isEmpty then none
      else
        match rest.dropWhile isDigitC with
        | c2 :: c3 :: hx =>
          if c2 = '-' && c3 = 'g' && !hx.isEmpty && hx.all isHexLower then
            some (rest.takeWhile isDigitC, hx)
          else none
        | _ => none
    else none

/-- Try the split with group 1 of length `n`: group 1 may not contain a
newline (`.` class) and the remainder must match `parseTail`. -/
def tryAt (s : List Char) (n : Nat) : Option (List Char × List Char × List Char) :=
  if '\n' ∈ s.take n then none
  else
    match parseTail (s.drop n) with
    | some (d, h) => some (s.take n, d, h)
    | none => none

/-- Try group-1 lengths `n, n-1, ..., 1` (greedy `(.+)`). -/
def matchFrom (s : List Char) : Nat → Option (List Char × List Char × List Char)
  | 0 => none
  | n + 1 =>
    match tryAt s (n + 1) with
    | some r => some r
    | none => matchFrom s n

/-- Model of `re.search(r'^(.+)-(\d+)-g([0-9a-f]+)$', s)` on a single-line
string: the groups of the match, or `none`. -/
def matchDescribe (s : List Char) : Option (List Char × List Char × List Char) :=
  matchFrom s (s.length - 1)

/-- Body of `git_parse_vcs_describe` after the dirty marker has been
stripped: `gd` is the remaining `TAG-NUM-gHEX` or `HEX` text. -/
def describe_core (gd tp : List Char) (dirty : Bool) : Option (List Char) × Bool :=
  let dirty_suffix := if dirty then ".dirty".toList else []
  if '-' ∉ gd then
    (some ("0+untagged.g".toList ++ gd ++ dirty_suffix), dirty)
  else
    match matchDescribe gd with
    | none => (some ("0+unparseable".toList ++ dirty_suffix), dirty)
    | some (full_tag, num, commit) =>
      if tp.isPrefixOf full_tag then
        let tag := full_tag.drop tp.length
        let distance := digitsVal num
        if distance != 0 || dirty then
          (some (tag ++ '+' :: (Nat.toDigits 10 distance ++ '.' :: 'g' :: commit)
                   ++ dirty_suffix), dirty)
        else (some tag, dirty)
      else (none, dirty)

/-- Model of `git_parse_vcs_describe`: detect and strip a trailing `-dirty`
(`s[:s.rindex("-dirty")]` is `s.take (s.length - 6)` when `s` ends with the
six-character marker), then parse the rest. -/
def git_parse_vcs_describe (git_describe tp : List Char) : Option (List Char) × Bool :=
  let dirty := "-dirty".toList.isSuffixOf git_describe
  describe_core (if dirty then git_describe.take (git_describe.length - 6) else git_describe)
    tp dirty

/-! ### git_versions_from_keywords -/

/-- The `for ref in sorted(tags): if ref.startswith(tag_prefix): return ...`
loop: first sorted candidate carrying the prefix, with the prefix removed. -/
def firstWithPfx (tp : List Char) : List (List Char) → Option (List Char)
  | [] => none
  | r :: rest => if tp.isPrefixOf r then some (r.drop tp.length) else firstWithPfx tp rest

/-- Candidate tag names from an expanded `refnames` value: split the
parenthesized comma-separated list, trim each entry, prefer entries with
the `tag: ` marker (stripping it), otherwise fall back to entries
containing a digit. -/
def keywordTags (refnames : List Char) : List (List Char) :=
  let refs := (pySplit ',' (pyStripParens refnames)).map pyStrip
  let tagRefs := (refs.filter (fun r => "tag: ".toList.isPrefixOf r)).map (·.drop 5)
  if tagRefs = [] then refs.filter (fun r => r.any isDigitC) else tagRefs

/-- Model of `git_versions_from_keywords`.  `.error ()` is the `KeyError`
raised by `keywords["refnames"]` / `keywords["full"]` on a missing key;
`.ok none` is the empty dict `{}`. -/
def git_versions_from_keywords (keywords : KeywordsRec) (tp : List Char) :
    Except Unit (Option VInfo) :=
  if keywords.refnames = none ∧ keywords.full = none then .ok none
  else
    match keywords.refnames with
    | none => .error ()
    | some rn0 =>
      if "$Format".toList.isPrefixOf (pyStrip rn0) then .ok none
      else
        match firstWithPfx tp (sortStrs (dedupStrs (keywordTags (pyStrip rn0)))) with
        | some v =>
          match keywords.full with
          | none => .error ()
          | some f => .ok (some ⟨some v, pyStrip f⟩)
        | none =>
          match keywords.full with
          | none => .error ()
          | some f => .ok (some ⟨some ("0+unknown".toList), pyStrip f⟩)

/-! ### git_versions_from_vcs -/

/-- Observable environment of the subprocess calls made by
`git_versions_from_vcs`: whether `root/.git` exists, and the stripped stdout
of `git describe --tags --dirty --always --long` and of
`git rev-parse HEAD` (`none` when the command could not be run or exited
nonzero, i.e. `run_command` returned `None`). -/
structure VcsEnv where
  dotGit : Bool
  describeOut : Option (List Char)
  revParseOut : Option (List Char)
deriving DecidableEq, Repr

/-- Model of `git_versions_from_vcs`. -/
def git_versions_from_vcs (tp : List Char) (env : VcsEnv) : Option VInfo :=
  if env.dotGit = false then none
  else
    match env.describeOut with
    | none => none
    | some stdout =>
      let vd := git_parse_vcs_describe stdout tp
      match env.revParseOut with
      | none => none
      | some out2 =>
        let full := pyStrip out2
        some ⟨vd.1, if vd.2 then full ++ ".dirty".toList else full⟩

/-! ### get_versions -/

/-- Environment of `get_versions`: the module constants `git_refnames` and
`git_full` (as substituted, or not, by git-archive), whether `__file__` is
available (the `NameError` branch), the subprocess environment, and the
basename of the root directory computed from `__file__` and
`versionfile_source`. -/
structure Env where
  refnamesVal : List Char
  fullVal : List Char
  selfPathOk : Bool
  vcs : VcsEnv
  rootDirname : List Char
deriving DecidableEq, Repr

/-- Model of `get_versions`: keyword resolver, then (if `__file__` exists)
VCS resolver, then parent-directory resolver, then the caller default. -/
def get_versions (env : Env) (default : VInfo) : Except Unit VInfo :=
  match git_versions_from_keywords ⟨some env.refnamesVal, some env.fullVal⟩ tag_pfx with
  | .error e => .error e
  | .ok (some v) => .ok v
  | .ok none =>
    if env.selfPathOk = false then .ok default
    else
      match git_versions_from_vcs tag_pfx env.vcs with
      | some v => .ok v
      | none =>
        match versions_from_parentdir parentdir_pfx env.rootDirname with
        | some v => .ok v
        | none => .ok default

/-! ### Helper instances and lemmas -/

instance {ε α : Type} [DecidableEq ε] [DecidableEq α] : DecidableEq (Except ε α) := fun x y =>
  match x, y with
  | .ok a, .ok b =>
    if h : a = b then isTrue (by rw [h]) else isFalse (by intro hc; cases hc; exact h rfl)
  | .error a, .error b =>
    if h : a = b then isTrue (by rw [h]) else isFalse (by intro hc; cases hc; exact h rfl)
  | .ok _, .error _ => isFalse (by intro hc; cases hc)
  | .error _, .ok _ => isFalse (by intro hc; cases hc)

theorem ne_dash_of_isDigitC {c : Char} (h : isDigitC c = true) : c ≠ '-' := by
  intro he; subst he; simp [isDigitC] at h

theorem ne_dash_of_isHexLower {c : Char} (h : isHexLower c = true) : c ≠ '-' := by
  intro he; subst he; simp [isHexLower, isDigitC] at h

theorem ne_y_of_isHexLower {c : Char} (h : isHexLower c = true) : c ≠ 'y' := by
  intro he; subst he; simp [isHexLower, isDigitC] at h

theorem mem_of_mem_takeWhile {p : Char → Bool} :
    ∀ {l : List Char} {c : Char}, c ∈ l.takeWhile p → c ∈ l :=
  fun h => (List.takeWhile_sublist _).subset h

theorem mem_of_mem_dropWhile {p : Char → Bool} :
    ∀ {l : List Char} {c : Char}, c ∈ l.dropWhile p → c ∈ l :=
  fun h => (List.dropWhile_sublist _).subset h

theorem takeWhile_append_all {p : Char → Bool} :
    ∀ {l₁ : List Char} (l₂ : List Char), (∀ c ∈ l₁, p c = true) →
      (l₁ ++ l₂).takeWhile p = l₁ ++ l₂.takeWhile p := by
  intro l₁
  induction l₁ with
  | nil => intro l₂ _; simp
  | cons a as ih =>
    intro l₂ h
    have ha : p a = true := h a (by simp)
    simp [List.takeWhile_cons_of_pos ha, ih l₂ (fun c hc => h c (by simp [hc]))]

theorem dropWhile_append_all {p : Char → Bool} :
    ∀ {l₁ : List Char} (l₂ : List Char), (∀ c ∈ l₁, p c = true) →
      (l₁ ++ l₂).dropWhile p = l₂.dropWhile p := by
  intro l₁
  induction l₁ with
  | nil => intro l₂ _; simp
  | cons a as ih =>
    intro l₂ h
    have ha : p a = true := h a (by simp)
    simp [List.dropWhile_cons_of_pos ha, ih l₂ (fun c hc => h c (by simp [hc]))]

/-! ### Lemmas about the regex model -/

theorem parseTail_nil : parseTail [] = none := rfl

theorem parseTail_cons_of_ne {c : Char} (t : List Char) (h : c ≠ '-') :
    parseTail (c :: t) = none := by
  simp [parseTail, h]

/-- The successful match of `-<digits>-g<hex>` at the intended split. -/
theorem parseTail_good {ds hex : List Char}
    (hds : ds ≠ []) (hd : ∀ c ∈ ds, isDigitC c = true)
    (hh : hex ≠ []) (hx : ∀ c ∈ hex, isHexLower c = true) :
    parseTail ('-' :: (ds ++ '-' :: 'g' :: hex)) = some (ds, hex) := by
  have hdashd : ¬ isDigitC '-' = true := by decide
  have htake : (ds ++ '-' :: 'g' :: hex).takeWhile isDigitC = ds := by
    rw [takeWhile_append_all _ hd, List.takeWhile_cons_of_neg hdashd, List.append_nil]
  have hdrop : (ds ++ '-' :: 'g' :: hex).dropWhile isDigitC = '-' :: 'g' :: hex := by
    rw [dropWhile_append_all _ hd, List.dropWhile_cons_of_neg hdashd]
  have hall : hex.all isHexLower = true := by simpa [List.all_eq_true] using hx
  have hne : ds.isEmpty = false := by simpa [List.isEmpty_eq_false] using hds
  have hne2 : hex.isEmpty = false := by simpa [List.isEmpty_eq_false] using hh
  simp [parseTail, htake, hdrop, hne, hne2, hall]

/-- No suffix of `ds ++ -g<hex>` (digits then `-g` then hex) parses:
dropping into the digits or the hex leaves a non-dash head, and dropping
onto the dash leaves no digits after it. -/
theorem parseTail_drop_hex {hex : List Char} (hx : ∀ c ∈ hex, isHexLower c = true) :
    ∀ j, parseTail (hex.drop j) = none := by
  induction hex with
  | nil => intro j; simp [parseTail_nil]
  | cons a t ih =>
    intro j
    cases j with
    | zero =>
      exact parseTail_cons_of_ne t (ne_dash_of_isHexLower (hx a (by simp)))
    | succ k =>
      simpa using ih (fun c hc => hx c (by simp [hc])) k

theorem parseTail_drop_ghex {hex : List Char} (hx : ∀ c ∈ hex, isHexLower c = true) :
    ∀ j, parseTail (('g' :: hex).drop j) = none := by
  intro j
  cases j with
  | zero => exact parseTail_cons_of_ne hex (by decide)
  | succ k => simpa using parseTail_drop_hex hx k

theorem parseTail_drop_dghex {hex : List Char} (hx : ∀ c ∈ hex, isHexLower c = true) :
    ∀ j, parseTail (('-' :: 'g' :: hex).drop j) = none := by
  intro j
  cases j with
  | zero =>
    have hg : ¬ isDigitC 'g' = true := by decide
    simp [parseTail, List.takeWhile_cons_of_neg hg]
  | succ k => simpa using parseTail_drop_ghex hx k

theorem parseTail_drop_tail {ds hex : List Char}
    (hd : ∀ c ∈ ds, isDigitC c = true) (hx : ∀ c ∈ hex, isHexLower c = true) :
    ∀ j, parseTail ((ds ++ '-' :: 'g' :: hex).drop j) = none := by
  induction ds with
  | nil => intro j; simpa using parseTail_drop_dghex hx j
  | cons a t ih =>
    intro j
    cases j with
    | zero =>
      exact parseTail_cons_of_ne _ (ne_dash_of_isDigitC (hd a (by simp)))
    | succ k =>
      simpa using ih (fun c hc => hd c (by simp [hc])) k

theorem tryAt_none_of_parseTail {s : List Char} {n : Nat}
    (h : parseTail (s.drop n) = none) : tryAt s n = none := by
  simp [tryAt, h]

theorem tryAt_some {s : List Char} {n : Nat} {d hx : List Char}
    (hnl : '\n' ∉ s.take n) (hp : parseTail (s.drop n) = some (d, hx)) :
    tryAt s n = some (s.take n, d, hx) := by
  simp [tryAt, hnl, hp]

theorem tryAt_inv {s : List Char} {n : Nat} {r : List Char × List Char × List Char}
    (h : tryAt s n = some r) :
    r.1 = s.take n ∧ parseTail (s.drop n) = some (r.2.1, r.2.2) := by
  unfold tryAt at h
  by_cases hnl : '\n' ∈ s.take n
  · simp [hnl] at h
  · rw [if_neg hnl] at h
    rcases he : parseTail (s.drop n) with _ | ⟨d, hx⟩
    · rw [he] at h; simp at h
    · rw [he] at h
      have h2 : (s.take n, d, hx) = r := by simpa using h
      rw [← h2]
      exact ⟨rfl, rfl⟩

theorem matchFrom_some_of {s : List Char} {k : Nat} {r : List Char × List Char × List Char}
    (hsome : tryAt s k = some r)
    (habove : ∀ m, k < m → tryAt s m = none)
    (hk : 1 ≤ k) :
    ∀ N, k ≤ N → matchFrom s N = some r := by
  intro N
  induction N with
  | zero => intro h; omega
  | succ n ih =>
    intro hkN
    by_cases he : k = n + 1
    · subst he; simp [matchFrom, hsome]
    · have h1 : tryAt s (n + 1) = none := habove (n + 1) (by omega)
      simp only [matchFrom, h1]
      exact ih (by omega)

theorem matchFrom_inv {s : List Char} :
    ∀ {N : Nat} {r : List Char × List Char × List Char}, matchFrom s N = some r →
      ∃ n, r.1 = s.take n ∧ parseTail (s.drop n) = some (r.2.1, r.2.2) := by
  intro N
  induction N with
  | zero => intro r h; simp [matchFrom] at h
  | succ n ih =>
    intro r h
    rcases he : tryAt s (n + 1) with _ | r'
    · simp only [matchFrom, he] at h
      exact ih h
    · simp only [matchFrom, he] at h
      injection h with h
      subst h
      obtain ⟨h1, h2⟩ := tryAt_inv he
      exact ⟨n + 1, h1, h2⟩

/-- The greedy regex match on a well-formed `TAG-NUM-gHEX` line recovers
exactly the three intended groups: no longer choice of group 1 can
complete a match. -/
theorem matchDescribe_tagged {TAG ds hex : List Char}
    (hT : TAG ≠ []) (hTn : '\n' ∉ TAG)
    (hds : ds ≠ []) (hd : ∀ c ∈ ds, isDigitC c = true)
    (hh : hex ≠ []) (hx : ∀ c ∈ hex, isHexLower c = true) :
    matchDescribe (TAG ++ '-' :: (ds ++ '-' :: 'g' :: hex)) = some (TAG, ds, hex) := by
  set s := TAG ++ '-' :: (ds ++ '-' :: 'g' :: hex) with hs
  have htakeT : s.take TAG.length = TAG := by rw [hs]; exact List.take_left TAG _
  have hdropT : s.drop TAG.length = '-' :: (ds ++ '-' :: 'g' :: hex) := by
    rw [hs]; exact List.drop_left TAG _
  have hgood : tryAt s TAG.length = some (TAG, ds, hex) := by
    have hp : parseTail (s.drop TAG.length) = some (ds, hex) := by
      rw [hdropT]; exact parseTail_good hds hd hh hx
    have hnl : '\n' ∉ s.take TAG.length := by rw [htakeT]; exact hTn
    have h1 := tryAt_some hnl hp
    rw [htakeT] at h1
    exact h1
  have habove : ∀ m, TAG.length < m → tryAt s m = none := by
    intro m hm
    apply tryAt_none_of_parseTail
    obtain ⟨k, hk⟩ : ∃ k, m - TAG.length = k + 1 := ⟨m - TAG.length - 1, by omega⟩
    have h3 : s.drop m = (ds ++ '-' :: 'g' :: hex).drop k := by
      rw [show m = TAG.length + (k + 1) by omega]
      rw [← List.drop_drop, hdropT, List.drop_succ_cons]
    rw [h3]
    exact parseTail_drop_tail hd hx k
  have hk1 : 1 ≤ TAG.length := List.length_pos.mpr hT
  have hkN : TAG.length ≤ s.length - 1 := by
    have h5 : TAG.length + 1 ≤ s.length := by
      rw [hs]
      simp [List.length_append]
    omega
  exact matchFrom_some_of hgood habove hk1 (s.length - 1) hkN

/-- Core of the well-formed tagged case, for both dirty flags at once. -/
theorem describe_core_tagged {TAG ds hex tp : List Char} (dirty : Bool)
    (hT : TAG ≠ []) (hTn : '\n' ∉ TAG) (hp : tp.isPrefixOf TAG = true)
    (hds : ds ≠ []) (hd : ∀ c ∈ ds, isDigitC c = true)
    (hh : hex ≠ []) (hx : ∀ c ∈ hex, isHexLower c = true) :
    describe_core (TAG ++ '-' :: (ds ++ '-' :: 'g' :: hex)) tp dirty =
      (some (if digitsVal ds = 0 ∧ dirty = false then TAG.drop tp.length
             else TAG.drop tp.length
                    ++ '+' :: (Nat.toDigits 10 (digitsVal ds) ++ '.' :: 'g' :: hex)
                    ++ (if dirty then ".dirty".toList else [])), dirty) := by
  have hmatch := matchDescribe_tagged hT hTn hds hd hh hx
  simp only [describe_core, hmatch]
  rw [if_neg (by simp), if_pos hp]
  by_cases hz : digitsVal ds = 0 <;> cases dirty <;> simp [hz]

/-! ### Dirty-marker lemmas and unfolding of git_parse_vcs_describe -/

theorem marker_suffix (core : List Char) :
    "-dirty".toList.isSuffixOf (core ++ "-dirty".toList) = true := by
  rw [List.isSuffixOf_iff_suffix]
  exact List.suffix_append core _

theorem take_append_6 (core sfx : List Char) (h6 : sfx.length = 6) :
    (core ++ sfx).take ((core ++ sfx).length - 6) = core := by
  rw [List.length_append, h6, Nat.add_sub_cancel]
  exact List.take_left core sfx

theorem not_dirty_of_no_dash {core : List Char} (h : '-' ∉ core) :
    "-dirty".toList.isSuffixOf core = false := by
  rw [Bool.eq_false_iff]
  intro hsuf
  rw [List.isSuffixOf_iff_suffix] at hsuf
  exact h (hsuf.subset (by decide))

/-- A well-formed `TAG-NUM-gHEX` line never carries the dirty marker: its
last character is a hex digit, not `y`. -/
theorem tagged_not_dirty {TAG ds hex : List Char}
    (hh : hex ≠ []) (hx : ∀ c ∈ hex, isHexLower c = true) :
    "-dirty".toList.isSuffixOf (TAG ++ '-' :: (ds ++ '-' :: 'g' :: hex)) = false := by
  rw [Bool.eq_false_iff]
  intro hsuf
  rw [List.isSuffixOf_iff_suffix] at hsuf
  obtain ⟨t, ht⟩ := hsuf
  have hs2 : TAG ++ '-' :: (ds ++ '-' :: 'g' :: hex)
      = (TAG ++ '-' :: ds ++ ['-', 'g']) ++ hex := by simp
  have h2 : (TAG ++ '-' :: (ds ++ '-' :: 'g' :: hex)).getLast? = some (hex.getLast hh) := by
    rw [hs2, List.getLast?_append, List.getLast?_eq_getLast hex hh]
    rfl
  have h1 : (TAG ++ '-' :: (ds ++ '-' :: 'g' :: hex)).getLast? = some 'y' := by
    rw [← ht, List.getLast?_append]
    have hm : ("-dirty".toList).getLast? = some 'y' := by decide
    rw [hm]
    rfl
  have hy : ('y' : Char) = hex.getLast hh := by
    have h3 := h1.symm.trans h2
    injection h3
  have h4 := hx _ (List.getLast_mem hh)
  rw [← hy] at h4
  exact absurd h4 (by decide)

theorem parse_eq_core_clean {s tp : List Char} (h : "-dirty".toList.isSuffixOf s = false) :
    git_parse_vcs_describe s tp = describe_core s tp false := by
  show describe_core (if "-dirty".toList.isSuffixOf s = true then s.take (s.length - 6) else s)
      tp ("-dirty".toList.isSuffixOf s) = describe_core s tp false
  rw [h]
  simp

theorem parse_eq_core_dirty (core tp : List Char) :
    git_parse_vcs_describe (core ++ "-dirty".toList) tp = describe_core core tp true := by
  show describe_core
      (if "-dirty".toList.isSuffixOf (core ++ "-dirty".toList) = true
        then (core ++ "-dirty".toList).take ((core ++ "-dirty".toList).length - 6)
        else core ++ "-dirty".toList)
      tp ("-dirty".toList.isSuffixOf (core ++ "-dirty".toList)) = describe_core core tp true
  rw [marker_suffix core, if_pos rfl, take_append_6 core "-dirty".toList (by decide)]

theorem describe_core_no_dash {gd : List Char} (tp : List Char) (h : '-' ∉ gd) (dirty : Bool) :
    describe_core gd tp dirty
      = (some ("0+untagged.g".toList ++ gd ++ (if dirty then ".dirty".toList else [])),
         dirty) := by
  simp [describe_core, h]

theorem describe_core_unmatched {gd : List Char} (tp : List Char)
    (hm : '-' ∈ gd) (hn : matchDescribe gd = none) (dirty : Bool) :
    describe_core gd tp dirty
      = (some ("0+unparseable".toList ++ (if dirty then ".dirty".toList else [])), dirty) := by
  simp [describe_core, hm, hn]

/-! ### Claim C1 -/

/-- C1: for every describe input `TAG-N-gHEX` with `TAG` starting with the
configured tag prefix, `N` a nonempty digit string and `HEX` a nonempty
lowercase-hex string (such an input never ends in the dirty marker),
`git_parse_vcs_describe` returns the prefix-stripped tag when the distance
is zero, and the prefix-stripped tag followed by `+N.gHEX` (with the
distance printed in canonical decimal, as `"%d" % int(N)` does) when the
distance is positive; the dirty flag is false. -/
theorem c1_describe_tagged_clean (TAG ds HEX tp : List Char)
    (hT : TAG ≠ []) (hTn : '\n' ∉ TAG) (hp : tp.isPrefixOf TAG = true)
    (hds : ds ≠ []) (hd : ∀ c ∈ ds, isDigitC c = true)
    (hH : HEX ≠ []) (hx : ∀ c ∈ HEX, isHexLower c = true) :
    git_parse_vcs_describe (TAG ++ '-' :: (ds ++ '-' :: 'g' :: HEX)) tp =
      (some (if digitsVal ds = 0 then TAG.drop tp.length
             else TAG.drop tp.length
                    ++ '+' :: (Nat.toDigits 10 (digitsVal ds) ++ '.' :: 'g' :: HEX)),
       false) := by
  rw [parse_eq_core_clean (tagged_not_dirty hH hx),
    describe_core_tagged false hT hTn hp hds hd hH hx]
  by_cases hz : digitsVal ds = 0 <;> simp [hz]

theorem c1_describe_tagged_clean_witness :
    git_parse_vcs_describe "v1.0-2-gabcdef".toList "v".toList =
      (some "1.0+2.gabcdef".toList, false) := by
  have h := c1_describe_tagged_clean "v1.0".toList "2".toList "abcdef".toList "v".toList
    (by decide) (by decide) (by decide) (by decide) (by decide) (by decide) (by decide)
  have e : "v1.0-2-gabcdef".toList
      = "v1.0".toList ++ '-' :: ("2".toList ++ '-' :: 'g' :: "abcdef".toList) := by decide
  rw [e, h]
  decide

/-! ### Claim C2 -/

/-- C2 counterexample: for the exactly-tagged input `v1.0-0-gabc` with the
dirty marker, the result is `1.0+0.gabc.dirty`, but the same input without
the marker yields the bare tag `1.0`; stripping `.dirty` therefore does not
reproduce the non-dirty output when the distance is zero. -/
theorem c2_dirty_strip_cex :
    git_parse_vcs_describe "v1.0-0-gabc-dirty".toList "v".toList
        = (some "1.0+0.gabc.dirty".toList, true)
      ∧ git_parse_vcs_describe "v1.0-0-gabc".toList "v".toList = (some "1.0".toList, false)
      ∧ "1.0+0.gabc.dirty".toList.take ("1.0+0.gabc.dirty".toList.length - 6)
          ≠ "1.0".toList := by decide

/-- C2 amended: for every well-formed `TAG-N-gHEX` input with the dirty
marker appended, the result always ends in `.dirty`; when the distance is
nonzero, stripping the trailing `.dirty` reproduces the non-dirty output
(when the distance is zero the non-dirty output is the bare tag instead,
as the counterexample shows). -/
theorem c2_dirty_strip_amended (TAG ds HEX tp : List Char)
    (hT : TAG ≠ []) (hTn : '\n' ∉ TAG) (hp : tp.isPrefixOf TAG = true)
    (hds : ds ≠ []) (hd : ∀ c ∈ ds, isDigitC c = true)
    (hH : HEX ≠ []) (hx : ∀ c ∈ HEX, isHexLower c = true) :
    ∃ v, git_parse_vcs_describe ((TAG ++ '-' :: (ds ++ '-' :: 'g' :: HEX))
            ++ "-dirty".toList) tp = (some v, true)
      ∧ ".dirty".toList.isSuffixOf v = true
      ∧ (digitsVal ds ≠ 0 →
          git_parse_vcs_describe (TAG ++ '-' :: (ds ++ '-' :: 'g' :: HEX)) tp
            = (some (v.take (v.length - 6)), false)) := by
  refine ⟨TAG.drop tp.length ++ '+' :: (Nat.toDigits 10 (digitsVal ds) ++ '.' :: 'g' :: HEX)
            ++ ".dirty".toList, ?_, ?_, ?_⟩
  · rw [parse_eq_core_dirty, describe_core_tagged true hT hTn hp hds hd hH hx]
    simp
  · rw [List.isSuffixOf_iff_suffix]
    exact List.suffix_append _ _
  · intro hnz
    rw [parse_eq_core_clean (tagged_not_dirty hH hx),
      describe_core_tagged false hT hTn hp hds hd hH hx]
    rw [if_neg (by simp [hnz])]
    rw [take_append_6 _ ".dirty".toList (by decide)]
    simp

theorem c2_dirty_strip_amended_witness :
    git_parse_vcs_describe "v1.0-3-gab-dirty".toList "v".toList
        = (some "1.0+3.gab.dirty".toList, true)
      ∧ ".dirty".toList.isSuffixOf "1.0+3.gab.dirty".toList = true
      ∧ git_parse_vcs_describe "v1.0-3-gab".toList "v".toList
          = (some ("1.0+3.gab.dirty".toList.take ("1.0+3.gab.dirty".toList.length - 6)),
             false) := by
  obtain ⟨v, h1, h2, h3⟩ := c2_dirty_strip_amended "v1.0".toList "3".toList "ab".toList
    "v".toList (by decide) (by decide) (by decide) (by decide) (by decide) (by decide)
    (by decide)
  have e1 : ("v1.0".toList ++ '-' :: ("3".toList ++ '-' :: 'g' :: "ab".toList))
      ++ "-dirty".toList = "v1.0-3-gab-dirty".toList := by decide
  have e2 : "v1.0".toList ++ '-' :: ("3".toList ++ '-' :: 'g' :: "ab".toList)
      = "v1.0-3-gab".toList := by decide
  rw [e1] at h1
  rw [e2] at h3
  have hd : git_parse_vcs_describe "v1.0-3-gab-dirty".toList "v".toList
      = (some "1.0+3.gab.dirty".toList, true) := by decide
  have hveq : v = "1.0+3.gab.dirty".toList := by
    have h4 := hd.symm.trans h1
    injection h4 with h4a h4b
    injection h4a with h4a
    exact h4a.symm
  subst hveq
  exact ⟨h1, h2, h3 (by decide)⟩

/-! ### Claim C7 -/

/-- C7: a describe input with no hyphen after dirty-marker stripping is a
bare commit hash: the version is `0+untagged.g` followed by the remaining
string, with `.dirty` appended exactly when the marker was present. -/
theorem c7_untagged (core tp : List Char) (h : '-' ∉ core) :
    git_parse_vcs_describe core tp = (some ("0+untagged.g".toList ++ core), false)
      ∧ git_parse_vcs_describe (core ++ "-dirty".toList) tp
          = (some ("0+untagged.g".toList ++ core ++ ".dirty".toList), true) := by
  constructor
  · rw [parse_eq_core_clean (not_dirty_of_no_dash h), describe_core_no_dash tp h false]
    simp
  · rw [parse_eq_core_dirty, describe_core_no_dash tp h true]
    simp

theorem c7_untagged_witness :
    git_parse_vcs_describe "abc123".toList "v".toList
        = (some ("0+untagged.g".toList ++ "abc123".toList), false)
      ∧ git_parse_vcs_describe ("abc123".toList ++ "-dirty".toList) "v".toList
          = (some ("0+untagged.g".toList ++ "abc123".toList ++ ".dirty".toList), true) :=
  c7_untagged "abc123".toList "v".toList (by decide)

/-! ### Claim C8 -/

/-- C8: a describe input that (after dirty-marker stripping) contains a
hyphen but does not match the anchored `<anything>-<digits>-g<hex>` pattern
yields the `0+unparseable` sentinel, with `.dirty` appended exactly when
the marker was present.  Every input in scope is covered: an input without
the trailing marker is its own stripped core (first conjunct, whose
no-marker condition then holds by assumption), and an input with the
trailing marker is `core ++ "-dirty"` for the stripped core — with no
restriction on `core`, which may itself end in `-dirty` (as in
`x-dirty-dirty`, whose stripped core is `x-dirty`). -/
theorem c8_unparseable (core tp : List Char)
    (h2 : '-' ∈ core) (h3 : matchDescribe core = none) :
    ("-dirty".toList.isSuffixOf core = false →
        git_parse_vcs_describe core tp = (some "0+unparseable".toList, false))
      ∧ git_parse_vcs_describe (core ++ "-dirty".toList) tp
          = (some "0+unparseable.dirty".toList, true) := by
  constructor
  · intro h1
    rw [parse_eq_core_clean h1, describe_core_unmatched tp h2 h3 false]
    decide
  · rw [parse_eq_core_dirty, describe_core_unmatched tp h2 h3 true]
    decide

theorem c8_unparseable_witness :
    (git_parse_vcs_describe "garbage-not-a-match".toList "v".toList
        = (some "0+unparseable".toList, false)
      ∧ git_parse_vcs_describe ("garbage-not-a-match".toList ++ "-dirty".toList) "v".toList
          = (some "0+unparseable.dirty".toList, true))
      ∧ git_parse_vcs_describe ("x-dirty".toList ++ "-dirty".toList) "v".toList
          = (some "0+unparseable.dirty".toList, true) := by
  refine ⟨⟨?_, ?_⟩, ?_⟩
  · exact (c8_unparseable "garbage-not-a-match".toList "v".toList
      (by decide) (by decide)).1 (by decide)
  · exact (c8_unparseable "garbage-not-a-match".toList "v".toList
      (by decide) (by decide)).2
  · exact (c8_unparseable "x-dirty".toList "v".toList (by decide) (by decide)).2

/-! ### Keyword resolver and orchestrator lemmas -/

/-- With both dictionary keys present (as `get_versions` always supplies
them), `git_versions_from_keywords` never raises: it returns an empty
result or a complete record with a proper version string. -/
theorem keywords_no_error (rn f tp : List Char) :
    ∃ o, git_versions_from_keywords ⟨some rn, some f⟩ tp = Except.ok o
      ∧ (o = none ∨ ∃ v fl, o = some ⟨some v, fl⟩) := by
  unfold git_versions_from_keywords
  rw [if_neg (by simp)]
  show ∃ o, (if "$Format".toList.isPrefixOf (pyStrip rn) = true then Except.ok none
      else _) = Except.ok o ∧ _
  by_cases hf : "$Format".toList.isPrefixOf (pyStrip rn) = true
  · rw [if_pos hf]
    exact ⟨none, rfl, Or.inl rfl⟩
  · rw [if_neg hf]
    rcases e : firstWithPfx tp (sortStrs (dedupStrs (keywordTags (pyStrip rn)))) with _ | v
    · exact ⟨some ⟨some ("0+unknown".toList), pyStrip f⟩, rfl, Or.inr ⟨_, _, rfl⟩⟩
    · exact ⟨some ⟨some v, pyStrip f⟩, rfl, Or.inr ⟨_, _, rfl⟩⟩

/-! ### Claim C5 -/

/-- C5 counterexample: a partial keywords record holding `refnames` but no
`full` (as `git_get_keywords` produces when only the `git_refnames` line
matches) makes `git_versions_from_keywords` raise `KeyError` at
`keywords["full"]` instead of returning a result. -/
theorem c5_keywords_keyerror_cex :
    git_versions_from_keywords ⟨some "(tag: v1.0)".toList, none⟩ "v".toList
      = Except.error () := by decide

/-- C5 amended: for every keywords record carrying both a `refnames` and a
`full` entry, `git_versions_from_keywords` returns an empty or complete
result without raising (a partial record with `refnames` but no `full`
raises `KeyError` instead, as the counterexample shows). -/
theorem c5_keywords_amended (rn f tp : List Char) :
    ∃ o, git_versions_from_keywords ⟨some rn, some f⟩ tp = Except.ok o
      ∧ (o = none ∨ ∃ v fl, o = some ⟨some v, fl⟩) :=
  keywords_no_error rn f tp

/-! ### Claim C9 -/

/-- C9: the keyword resolver iterates the candidate tags in sorted order
and picks the first one carrying the tag prefix, stripping it (the loop is
exactly a `find?` over the sorted candidates); in particular for refnames
`(tag: v2.0, tag: v2.0rc1, master)` and prefix `v` it returns `2.0`, not
`2.0rc1`. -/
theorem c9_sorted_tag_selection :
    (∀ (tp : List Char) (l : List (List Char)),
        firstWithPfx tp l
          = (l.find? (fun r => tp.isPrefixOf r)).map (fun r => r.drop tp.length))
  ∧ git_versions_from_keywords
      ⟨some "(tag: v2.0, tag: v2.0rc1, master)".toList, some " 0123abcd ".toList⟩ "v".toList
      = Except.ok (some ⟨some "2.0".toList, "0123abcd".toList⟩) := by
  constructor
  · intro tp l
    induction l with
    | nil => rfl
    | cons r rest ih =>
      by_cases h : tp.isPrefixOf r = true
      · simp [firstWithPfx, List.find?_cons_of_pos _ h, h]
      · rw [show firstWithPfx tp (r :: rest) = firstWithPfx tp rest from by
          simp [firstWithPfx, h]]
        rw [ih, List.find?_cons_of_neg _ h]
  · decide

/-! ### Claim C10 -/

/-- C10 counterexample: a refnames value that contains the raw `$Format`
text as a substring without starting with it is not treated as unexpanded:
the resolver returns a full (non-empty) result instead of deferring. -/
theorem c10_unexpanded_cex :
    ("$Format".toList <:+: "(tag: v1.0, y$Format)".toList)
      ∧ git_versions_from_keywords
          ⟨some "(tag: v1.0, y$Format)".toList, some "abcd".toList⟩ "v".toList
          = Except.ok (some ⟨some "1.0".toList, "abcd".toList⟩) := by decide

/-- C10 amended: for every keywords record whose stripped refnames value
starts with the `$Format` placeholder marker, the keyword resolver returns
an empty result, and `get_versions` falls through to the next resolver in
the chain (the VCS resolver). -/
theorem c10_unexpanded_amended :
    (∀ rn f tp, "$Format".toList.isPrefixOf (pyStrip rn) = true →
        git_versions_from_keywords ⟨some rn, some f⟩ tp = Except.ok none)
  ∧ (∀ (env : Env) (default v : VInfo),
        "$Format".toList.isPrefixOf (pyStrip env.refnamesVal) = true →
        env.selfPathOk = true →
        git_versions_from_vcs tag_pfx env.vcs = some v →
        get_versions env default = Except.ok v) := by
  have hka : ∀ rn f tp, "$Format".toList.isPrefixOf (pyStrip rn) = true →
      git_versions_from_keywords ⟨some rn, some f⟩ tp = Except.ok none := by
    intro rn f tp h
    unfold git_versions_from_keywords
    rw [if_neg (by simp)]
    show (if "$Format".toList.isPrefixOf (pyStrip rn) = true then Except.ok none else _)
        = Except.ok none
    rw [if_pos h]
  refine ⟨hka, ?_⟩
  intro env default v h hself hvcs
  unfold get_versions
  rw [hka env.refnamesVal env.fullVal tag_pfx h]
  show (if env.selfPathOk = false then Except.ok default else _) = Except.ok v
  rw [if_neg (by simp [hself]), hvcs]

theorem c10_unexpanded_amended_witness :
    get_versions
        ⟨"$Format:%d$".toList, "$Format:%H$".toList, true,
          ⟨true, some "v1.0-1-gab".toList, some "deadbeef".toList⟩, ".x".toList⟩
        ⟨some "0+unknown".toList, []⟩
      = Except.ok ⟨some "1.0+1.gab".toList, "deadbeef".toList⟩ :=
  c10_unexpanded_amended.2
    ⟨"$Format:%d$".toList, "$Format:%H$".toList, true,
      ⟨true, some "v1.0-1-gab".toList, some "deadbeef".toList⟩, ".x".toList⟩
    ⟨some "0+unknown".toList, []⟩ ⟨some "1.0+1.gab".toList, "deadbeef".toList⟩
    (by decide) rfl (by decide)

/-! ### Claim C3 -/

/-- C3 counterexample: on a describe output whose tag does not start with
the configured prefix, `git_versions_from_vcs` does not fail soft: it
returns a partial record with a `none` version and the full hash, and
`get_versions` returns that partial record instead of falling through to
the parent-directory resolver (which would have produced `9.9`). -/
theorem c3_pfx_mismatch_cex :
    git_versions_from_vcs tag_pfx
        ⟨true, some "x1.0-1-gab".toList, some "deadbeef".toList⟩
        = some ⟨none, "deadbeef".toList⟩
      ∧ get_versions
          ⟨"$Format:%d$".toList, "$Format:%H$".toList, true,
            ⟨true, some "x1.0-1-gab".toList, some "deadbeef".toList⟩, ".9.9".toList⟩
          ⟨some "0+unknown".toList, []⟩
          = Except.ok ⟨none, "deadbeef".toList⟩
      ∧ versions_from_parentdir parentdir_pfx ".9.9".toList = some ⟨some "9.9".toList, []⟩
      ∧ (some (⟨none, "deadbeef".toList⟩ : VInfo) ≠ none) := by decide

/-- C3 amended: when the describe output matches the pattern but the tag
does not carry the prefix, `git_parse_vcs_describe` yields a `none`
version; `git_versions_from_vcs` (with `.git` present and both commands
succeeding) still returns a record with `version := none` and the full
hash, and `get_versions` returns this partial record — it does not fall
through to the next resolver. -/
theorem c3_pfx_mismatch_amended (env : Env) (default : VInfo) (dOut f : List Char)
    (hk : git_versions_from_keywords ⟨some env.refnamesVal, some env.fullVal⟩ tag_pfx
            = Except.ok none)
    (hself : env.selfPathOk = true)
    (hg : env.vcs.dotGit = true)
    (hd : env.vcs.describeOut = some dOut)
    (hr : env.vcs.revParseOut = some f)
    (hv : (git_parse_vcs_describe dOut tag_pfx).1 = none) :
    ∃ fl, git_versions_from_vcs tag_pfx env.vcs = some ⟨none, fl⟩
      ∧ get_versions env default = Except.ok ⟨none, fl⟩ := by
  have hvcs : git_versions_from_vcs tag_pfx env.vcs
      = some ⟨none, if (git_parse_vcs_describe dOut tag_pfx).2
                    then pyStrip f ++ ".dirty".toList else pyStrip f⟩ := by
    unfold git_versions_from_vcs
    rw [if_neg (by simp [hg]), hd, hr]
    show some (⟨(git_parse_vcs_describe dOut tag_pfx).1,
        if (git_parse_vcs_describe dOut tag_pfx).2 = true then pyStrip f ++ ".dirty".toList
        else pyStrip f⟩ : VInfo)
      = some (⟨none, if (git_parse_vcs_describe dOut tag_pfx).2 = true
                    then pyStrip f ++ ".dirty".toList else pyStrip f⟩ : VInfo)
    rw [hv]
  refine ⟨_, hvcs, ?_⟩
  unfold get_versions
  rw [hk]
  show (if env.selfPathOk = false then Except.ok default else _) = _
  rw [if_neg (by simp [hself]), hvcs]

theorem c3_pfx_mismatch_amended_witness :
    git_versions_from_vcs tag_pfx
        ⟨true, some "x1.0-1-gab".toList, some "deadbeef".toList⟩
        = some ⟨none, "deadbeef".toList⟩
      ∧ get_versions
          ⟨"$Format:%d$".toList, "$Format:%H$".toList, true,
            ⟨true, some "x1.0-1-gab".toList, some "deadbeef".toList⟩, ".9.9".toList⟩
          ⟨some "0+unknown".toList, []⟩ = Except.ok ⟨none, "deadbeef".toList⟩ := by
  obtain ⟨fl, h1, h2⟩ := c3_pfx_mismatch_amended
    ⟨"$Format:%d$".toList, "$Format:%H$".toList, true,
      ⟨true, some "x1.0-1-gab".toList, some "deadbeef".toList⟩, ".9.9".toList⟩
    ⟨some "0+unknown".toList, []⟩ "x1.0-1-gab".toList "deadbeef".toList
    (by decide) rfl rfl rfl rfl (by decide)
  have hd : git_versions_from_vcs tag_pfx
      ⟨true, some "x1.0-1-gab".toList, some "deadbeef".toList⟩
      = some ⟨none, "deadbeef".toList⟩ := by decide
  have hfl : fl = "deadbeef".toList := by
    have h3 := hd.symm.trans h1
    injection h3 with h3
    injection h3 with h3a h3b
    exact h3b.symm
  subst hfl
  exact ⟨h1, h2⟩

/-! ### Claim C4 -/

/-- C4: `get_versions` always returns a value (no resolver failure is
fatal), and when the keyword resolver defers and either `__file__` is
unavailable or both the VCS and parent-directory resolvers fail, the
result is exactly the caller-supplied default. -/
theorem c4_orchestrator_default :
    (∀ (env : Env) (default : VInfo), ∃ v, get_versions env default = Except.ok v)
  ∧ (∀ (env : Env) (default : VInfo),
      git_versions_from_keywords ⟨some env.refnamesVal, some env.fullVal⟩ tag_pfx
          = Except.ok none →
      (env.selfPathOk = false ∨
        (git_versions_from_vcs tag_pfx env.vcs = none ∧
          versions_from_parentdir parentdir_pfx env.rootDirname = none)) →
      get_versions env default = Except.ok default) := by
  constructor
  · intro env default
    obtain ⟨o, ho, _⟩ := keywords_no_error env.refnamesVal env.fullVal tag_pfx
    unfold get_versions
    rw [ho]
    rcases o with _ | v
    · by_cases hs : env.selfPathOk = false
      · exact ⟨default, by rw [if_pos hs]⟩
      · show ∃ v, (if env.selfPathOk = false then Except.ok default else _) = _
        rw [if_neg hs]
        rcases hv : git_versions_from_vcs tag_pfx env.vcs with _ | v
        · rcases hp2 : versions_from_parentdir parentdir_pfx env.rootDirname with _ | v
          · exact ⟨default, rfl⟩
          · exact ⟨v, rfl⟩
        · exact ⟨v, rfl⟩
    · exact ⟨v, rfl⟩
  · intro env default hk hfail
    unfold get_versions
    rw [hk]
    rcases hfail with hs | ⟨hv, hp2⟩
    · show (if env.selfPathOk = false then Except.ok default else _) = _
      rw [if_pos hs]
    · show (if env.selfPathOk = false then Except.ok default else _) = _
      by_cases hs : env.selfPathOk = false
      · rw [if_pos hs]
      · rw [if_neg hs, hv, hp2]

theorem c4_orchestrator_default_witness :
    get_versions
        ⟨"$Format:%d$".toList, "$Format:%H$".toList, true, ⟨false, none, none⟩, "x".toList⟩
        ⟨some "0+unknown".toList, []⟩
      = Except.ok ⟨some "0+unknown".toList, []⟩ :=
  c4_orchestrator_default.2
    ⟨"$Format:%d$".toList, "$Format:%H$".toList, true, ⟨false, none, none⟩, "x".toList⟩
    ⟨some "0+unknown".toList, []⟩ (by decide) (Or.inr ⟨by decide, by decide⟩)

/-! ### Whitespace machinery for Claim C6 -/

theorem not_space_of_digit {c : Char} (hd : isDigitC c = true) : isPySpace c = false := by
  cases hq : isPySpace c
  · rfl
  · exfalso
    simp only [isPySpace, Bool.or_eq_true, decide_eq_true_eq] at hq
    rcases hq with ((((rfl | rfl) | rfl) | rfl) | rfl) | rfl <;> exact absurd hd (by decide)

theorem digitChar_digit {m : Nat} (h : m < 10) : isDigitC (Nat.digitChar m) = true := by
  interval_cases m <;> decide

theorem toDigitsCore_digits :
    ∀ (f n : Nat) (ds : List Char), (∀ c ∈ ds, isDigitC c = true) →
      ∀ c ∈ Nat.toDigitsCore 10 f n ds, isDigitC c = true := by
  intro f
  induction f with
  | zero => intro n ds hds c hc; exact hds c hc
  | succ f ih =>
    intro n ds hds c hc
    have hdc : isDigitC (Nat.digitChar (n % 10)) = true :=
      digitChar_digit (Nat.mod_lt n (by decide))
    have hds2 : ∀ c ∈ Nat.digitChar (n % 10) :: ds, isDigitC c = true := by
      intro c' hc'
      rcases List.mem_cons.mp hc' with rfl | hc'
      · exact hdc
      · exact hds c' hc'
    simp only [Nat.toDigitsCore] at hc
    by_cases hz : n / 10 = 0
    · rw [if_pos hz] at hc
      exact hds2 c hc
    · rw [if_neg hz] at hc
      exact ih (n / 10) (Nat.digitChar (n % 10) :: ds) hds2 c hc

theorem toDigits_digits (n : Nat) : ∀ c ∈ Nat.toDigits 10 n, isDigitC c = true :=
  toDigitsCore_digits (n + 1) n [] (by intro c hc; cases hc)

theorem no_ws_toDigits (n : Nat) : ∀ c ∈ Nat.toDigits 10 n, isPySpace c = false :=
  fun c hc => not_space_of_digit (toDigits_digits n c hc)

theorem no_ws_append {l₁ l₂ : List Char}
    (h₁ : ∀ c ∈ l₁, isPySpace c = false) (h₂ : ∀ c ∈ l₂, isPySpace c = false) :
    ∀ c ∈ l₁ ++ l₂, isPySpace c = false := by
  intro c hc
  rcases List.mem_append.mp hc with h | h
  · exact h₁ c h
  · exact h₂ c h

theorem no_ws_cons {a : Char} {l : List Char}
    (ha : isPySpace a = false) (h : ∀ c ∈ l, isPySpace c = false) :
    ∀ c ∈ a :: l, isPySpace c = false := by
  intro c hc
  rcases List.mem_cons.mp hc with rfl | hc
  · exact ha
  · exact h c hc

theorem no_ws_sfx (dirty : Bool) :
    ∀ c ∈ (if dirty then ".dirty".toList else []), isPySpace c = false := by
  cases dirty <;> decide

theorem parseTail_mem_hex {t d hx : List Char}
    (h : parseTail t = some (d, hx)) : ∀ c ∈ hx, c ∈ t := by
  cases t with
  | nil => simp [parseTail] at h
  | cons a rest =>
    by_cases ha : a = '-'
    · subst ha
      rcases e : rest.dropWhile isDigitC with _ | ⟨c2, _ | ⟨c3, hx'⟩⟩
      · have h' : parseTail ('-' :: rest) = none := by simp [parseTail, e]
        rw [h'] at h
        cases h
      · have h' : parseTail ('-' :: rest) = none := by simp [parseTail, e]
        rw [h'] at h
        cases h
      · by_cases he : (rest.takeWhile isDigitC).isEmpty = true
        · have h' : parseTail ('-' :: rest) = none := by simp [parseTail, he]
          rw [h'] at h
          cases h
        · by_cases hcond : (c2 = '-' && c3 = 'g' && !hx'.isEmpty && hx'.all isHexLower) = true
          · have h' : parseTail ('-' :: rest) = some (rest.takeWhile isDigitC, hx') := by
              simp [parseTail, e, he, hcond]
            rw [h'] at h
            injection h with h
            injection h with h1 h2
            subst h2
            intro c hc
            have h3 : c ∈ rest.dropWhile isDigitC := by
              rw [e]
              exact List.mem_cons_of_mem c2 (List.mem_cons_of_mem c3 hc)
            exact List.mem_cons_of_mem '-' (mem_of_mem_dropWhile h3)
          · have h' : parseTail ('-' :: rest) = none := by simp [parseTail, e, he, hcond]
            rw [h'] at h
            cases h
    · rw [parseTail_cons_of_ne rest ha] at h
      cases h

theorem matchDescribe_inv {s : List Char} {r : List Char × List Char × List Char}
    (h : matchDescribe s = some r) :
    ∃ n, r.1 = s.take n ∧ parseTail (s.drop n) = some (r.2.1, r.2.2) :=
  matchFrom_inv h

/-- Whitespace never appears in a version built by `describe_core` from a
whitespace-free describe line. -/
theorem describe_core_no_ws {gd tp : List Char} {dirty : Bool} {v : List Char}
    (hgd : ∀ c ∈ gd, isPySpace c = false)
    (h : (describe_core gd tp dirty).1 = some v) :
    ∀ c ∈ v, isPySpace c = false := by
  unfold describe_core at h
  by_cases hm : '-' ∈ gd
  · rw [if_neg (not_not_intro hm)] at h
    rcases e : matchDescribe gd with _ | ⟨ft, num, commit⟩
    · rw [e] at h
      have h' : some ("0+unparseable".toList ++ (if dirty = true then ".dirty".toList else []))
          = some v := h
      injection h' with h'
      subst h'
      exact no_ws_append (by decide) (no_ws_sfx dirty)
    · rw [e] at h
      obtain ⟨n, hft0, hpt0⟩ := matchDescribe_inv e
      have hft : ft = gd.take n := hft0
      have hpt : parseTail (gd.drop n) = some (num, commit) := hpt0
      have hft_ws : ∀ c ∈ ft, isPySpace c = false := by
        intro c hc
        rw [hft] at hc
        exact hgd c ((List.take_sublist n gd).subset hc)
      have hcommit_ws : ∀ c ∈ commit, isPySpace c = false := by
        intro c hc
        have h2 := parseTail_mem_hex hpt c hc
        exact hgd c ((List.drop_sublist n gd).subset h2)
      have htag_ws : ∀ c ∈ ft.drop tp.length, isPySpace c = false :=
        fun c hc => hft_ws c ((List.drop_sublist tp.length ft).subset hc)
      have h1 : (if tp.isPrefixOf ft = true then
            (if (digitsVal num != 0 || dirty) = true then
              (some (ft.drop tp.length
                      ++ '+' :: (Nat.toDigits 10 (digitsVal num) ++ '.' :: 'g' :: commit)
                      ++ (if dirty = true then ".dirty".toList else [])), dirty)
             else (some (ft.drop tp.length), dirty))
          else ((none : Option (List Char)), dirty)).1 = some v := h
      by_cases hpf : tp.isPrefixOf ft = true
      · rw [if_pos hpf] at h1
        by_cases hsuf : (digitsVal num != 0 || dirty) = true
        · rw [if_pos hsuf] at h1
          have h2 : some (ft.drop tp.length
              ++ '+' :: (Nat.toDigits 10 (digitsVal num) ++ '.' :: 'g' :: commit)
              ++ (if dirty = true then ".dirty".toList else [])) = some v := h1
          injection h2 with h2
          subst h2
          exact no_ws_append
            (no_ws_append htag_ws
              (no_ws_cons (by decide)
                (no_ws_append (no_ws_toDigits (digitsVal num))
                  (no_ws_cons (by decide) (no_ws_cons (by decide) hcommit_ws)))))
            (no_ws_sfx dirty)
        · rw [if_neg hsuf] at h1
          have h2 : some (ft.drop tp.length) = some v := h1
          injection h2 with h2
          subst h2
          exact htag_ws
      · rw [if_neg hpf] at h1
        have h2 : (none : Option (List Char)) = some v := h1
        cases h2
  · rw [if_pos hm] at h
    have h' : some ("0+untagged.g".toList ++ gd ++ (if dirty = true then ".dirty".toList else []))
        = some v := h
    injection h' with h'
    subst h'
    exact no_ws_append (no_ws_append (by decide) hgd) (no_ws_sfx dirty)

theorem mem_of_mem_pyStrip {l : List Char} {c : Char} (h : c ∈ pyStrip l) : c ∈ l := by
  unfold pyStrip at h
  have h1 := List.mem_reverse.mp h
  have h2 := mem_of_mem_dropWhile h1
  have h3 := List.mem_reverse.mp h2
  exact mem_of_mem_dropWhile h3

theorem mem_of_mem_pyStripParens {l : List Char} {c : Char}
    (h : c ∈ pyStripParens l) : c ∈ l := by
  unfold pyStripParens at h
  have h1 := List.mem_reverse.mp h
  have h2 := mem_of_mem_dropWhile h1
  have h3 := List.mem_reverse.mp h2
  exact mem_of_mem_dropWhile h3

theorem mem_of_mem_pySplit {sep : Char} :
    ∀ {l piece : List Char}, piece ∈ pySplit sep l → ∀ c ∈ piece, c ∈ l := by
  intro l
  induction l with
  | nil =>
    intro piece hp c hc
    simp [pySplit] at hp
    subst hp
    cases hc
  | cons a rest ih =>
    intro piece hp c hc
    simp only [pySplit] at hp
    by_cases ha : a = sep
    · rw [if_pos ha] at hp
      rcases List.mem_cons.mp hp with rfl | hp
      · cases hc
      · exact List.mem_cons_of_mem a (ih hp c hc)
    · rw [if_neg ha] at hp
      rcases e : pySplit sep rest with _ | ⟨h0, t0⟩
      · rw [e] at hp
        simp at hp
        subst hp
        simp at hc
        subst hc
        exact List.mem_cons_self c rest
      · rw [e] at hp
        rcases List.mem_cons.mp hp with rfl | hp
        · rcases List.mem_cons.mp hc with rfl | hc
          · exact List.mem_cons_self c rest
          · have hh0 : h0 ∈ pySplit sep rest := by rw [e]; exact List.mem_cons_self h0 t0
            exact List.mem_cons_of_mem a (ih hh0 c hc)
        · have ht0 : piece ∈ pySplit sep rest := by rw [e]; exact List.mem_cons_of_mem h0 hp
          exact List.mem_cons_of_mem a (ih ht0 c hc)

theorem mem_of_mem_insertSortedStr {x r : List Char} :
    ∀ {l : List (List Char)}, r ∈ insertSortedStr x l → r = x ∨ r ∈ l := by
  intro l
  induction l with
  | nil =>
    intro h
    simp [insertSortedStr] at h
    exact Or.inl h
  | cons a rest ih =>
    intro h
    simp only [insertSortedStr] at h
    by_cases hlt : lexLt x a = true
    · rw [if_pos hlt] at h
      rcases List.mem_cons.mp h with rfl | h
      · exact Or.inl rfl
      · exact Or.inr h
    · rw [if_neg hlt] at h
      rcases List.mem_cons.mp h with rfl | h
      · exact Or.inr (List.mem_cons_self r rest)
      · rcases ih h with h | h
        · exact Or.inl h
        · exact Or.inr (List.mem_cons_of_mem a h)

theorem mem_of_mem_sortStrs {r : List Char} :
    ∀ {l : List (List Char)}, r ∈ sortStrs l → r ∈ l := by
  intro l
  induction l with
  | nil => intro h; cases h
  | cons a rest ih =>
    intro h
    rcases mem_of_mem_insertSortedStr h with rfl | h
    · exact List.mem_cons_self r rest
    · exact List.mem_cons_of_mem a (ih h)

theorem mem_of_mem_dedupAux {r : List Char} :
    ∀ {l seen : List (List Char)}, r ∈ dedupAux seen l → r ∈ l := by
  intro l
  induction l with
  | nil => intro seen h; cases h
  | cons a rest ih =>
    intro seen h
    simp only [dedupAux] at h
    by_cases hs : a ∈ seen
    · rw [if_pos hs] at h
      exact List.mem_cons_of_mem a (ih h)
    · rw [if_neg hs] at h
      rcases List.mem_cons.mp h with rfl | h
      · exact List.mem_cons_self r rest
      · exact List.mem_cons_of_mem a (ih h)

theorem mem_of_mem_dedupStrs {r : List Char} {l : List (List Char)}
    (h : r ∈ dedupStrs l) : r ∈ l :=
  mem_of_mem_dedupAux h

/-- Every character of a candidate tag produced by `keywordTags` occurs in
the refnames string it was extracted from. -/
theorem keywordTags_chars {rn r : List Char} (hr : r ∈ keywordTags rn) :
    ∀ c ∈ r, c ∈ rn := by
  have refs_chars : ∀ r0 ∈ (pySplit ',' (pyStripParens rn)).map pyStrip, ∀ c ∈ r0, c ∈ rn := by
    intro r0 hr0 c hc
    obtain ⟨piece, hpiece, rfl⟩ := List.mem_map.mp hr0
    exact mem_of_mem_pyStripParens (mem_of_mem_pySplit hpiece c (mem_of_mem_pyStrip hc))
  unfold keywordTags at hr
  by_cases ht : (((pySplit ',' (pyStripParens rn)).map pyStrip).filter
      (fun r => "tag: ".toList.isPrefixOf r)).map (·.drop 5) = []
  · rw [if_pos ht] at hr
    intro c hc
    exact refs_chars r (List.mem_filter.mp hr).1 c hc
  · rw [if_neg ht] at hr
    obtain ⟨r0, hr0, rfl⟩ := List.mem_map.mp hr
    intro c hc
    exact refs_chars r0 (List.mem_filter.mp hr0).1 c
      ((List.drop_sublist 5 r0).subset hc)

theorem firstWithPfx_inv {tp : List Char} :
    ∀ {l : List (List Char)} {out : List Char}, firstWithPfx tp l = some out →
      ∃ r, r ∈ l ∧ out = r.drop tp.length := by
  intro l
  induction l with
  | nil => intro out h; simp [firstWithPfx] at h
  | cons a rest ih =>
    intro out h
    simp only [firstWithPfx] at h
    by_cases hp : tp.isPrefixOf a = true
    · rw [if_pos hp] at h
      injection h with h
      exact ⟨a, List.mem_cons_self a rest, h.symm⟩
    · rw [if_neg hp] at h
      obtain ⟨r, hr, hout⟩ := ih h
      exact ⟨r, List.mem_cons_of_mem a hr, hout⟩

/-! ### Claim C6 -/

/-- C6 counterexample: the parent-directory resolver accepts the directory
name `.a b` (prefix `.`) and produces the version `a b`, which contains a
space. -/
theorem c6_whitespace_cex :
    versions_from_parentdir parentdir_pfx ".a b".toList = some ⟨some "a b".toList, []⟩
      ∧ ' ' ∈ "a b".toList ∧ isPySpace ' ' = true := by decide

/-- C6 amended: whenever a resolver's input strings contain no whitespace,
the version it produces contains no whitespace: this holds for the describe
parser (over the describe line), the keyword resolver (over the refnames
value), and the parent-directory resolver (over the directory name).  For
inputs containing whitespace it can leak into the version, as the
counterexample shows. -/
theorem c6_whitespace_amended :
    (∀ (s tp v : List Char) (d : Bool),
        git_parse_vcs_describe s tp = (some v, d) →
        (∀ c ∈ s, isPySpace c = false) → ∀ c ∈ v, isPySpace c = false)
  ∧ (∀ (rn f tp : List Char) (vi : VInfo) (v : List Char),
        git_versions_from_keywords ⟨some rn, some f⟩ tp = Except.ok (some vi) →
        vi.version = some v →
        (∀ c ∈ rn, isPySpace c = false) → ∀ c ∈ v, isPySpace c = false)
  ∧ (∀ (pfx dirname : List Char) (vi : VInfo) (v : List Char),
        versions_from_parentdir pfx dirname = some vi →
        vi.version = some v →
        (∀ c ∈ dirname, isPySpace c = false) → ∀ c ∈ v, isPySpace c = false) := by
  refine ⟨?_, ?_, ?_⟩
  · intro s tp v d h hs
    have h2 : describe_core
        (if "-dirty".toList.isSuffixOf s = true then s.take (s.length - 6) else s) tp
        ("-dirty".toList.isSuffixOf s) = (some v, d) := h
    have h3 : (describe_core
        (if "-dirty".toList.isSuffixOf s = true then s.take (s.length - 6) else s) tp
        ("-dirty".toList.isSuffixOf s)).1 = some v := by rw [h2]
    have hgd : ∀ c ∈ (if "-dirty".toList.isSuffixOf s = true then s.take (s.length - 6) else s),
        isPySpace c = false := by
      intro c hc
      by_cases hq : "-dirty".toList.isSuffixOf s = true
      · rw [if_pos hq] at hc
        exact hs c ((List.take_sublist _ s).subset hc)
      · rw [if_neg hq] at hc
        exact hs c hc
    exact describe_core_no_ws hgd h3
  · intro rn f tp vi v h hv hs
    by_cases hf : "$Format".toList.isPrefixOf (pyStrip rn) = true
    · have he : git_versions_from_keywords ⟨some rn, some f⟩ tp = Except.ok none := by
        unfold git_versions_from_keywords
        rw [if_neg (by simp)]
        show (if "$Format".toList.isPrefixOf (pyStrip rn) = true then Except.ok none else _)
            = Except.ok none
        rw [if_pos hf]
      rw [he] at h
      injection h with h
      cases h
    · rcases e : firstWithPfx tp (sortStrs (dedupStrs (keywordTags (pyStrip rn)))) with _ | ver
      · have he : git_versions_from_keywords ⟨some rn, some f⟩ tp
            = Except.ok (some ⟨some ("0+unknown".toList), pyStrip f⟩) := by
          unfold git_versions_from_keywords
          rw [if_neg (by simp)]
          show (if "$Format".toList.isPrefixOf (pyStrip rn) = true then Except.ok none else _)
              = _
          rw [if_neg hf, e]
        rw [he] at h
        injection h with h
        injection h with h
        rw [← h] at hv
        have hv2 : some ("0+unknown".toList) = some v := hv
        injection hv2 with hv2
        subst hv2
        decide
      · have he : git_versions_from_keywords ⟨some rn, some f⟩ tp
            = Except.ok (some ⟨some ver, pyStrip f⟩) := by
          unfold git_versions_from_keywords
          rw [if_neg (by simp)]
          show (if "$Format".toList.isPrefixOf (pyStrip rn) = true then Except.ok none else _)
              = _
          rw [if_neg hf, e]
        rw [he] at h
        injection h with h
        injection h with h
        rw [← h] at hv
        have hv2 : some ver = some v := hv
        injection hv2 with hv2
        subst hv2
        obtain ⟨r, hr, hout⟩ := firstWithPfx_inv e
        subst hout
        intro c hc
        have hcr : c ∈ r := (List.drop_sublist tp.length r).subset hc
        have hrn : c ∈ rn :=
          mem_of_mem_pyStrip
            (keywordTags_chars (mem_of_mem_dedupStrs (mem_of_mem_sortStrs hr)) c hcr)
        exact hs c hrn
  · intro pfx dirname vi v h hv hs
    unfold versions_from_parentdir at h
    by_cases hp : pfx.isPrefixOf dirname = true
    · rw [if_pos hp] at h
      injection h with h
      rw [← h] at hv
      have hv2 : some (dirname.drop pfx.length) = some v := hv
      injection hv2 with hv2
      subst hv2
      intro c hc
      exact hs c ((List.drop_sublist pfx.length dirname).subset hc)
    · rw [if_neg hp] at h
      cases h

theorem c6_whitespace_amended_witness : isPySpace '+' = false :=
  c6_whitespace_amended.1 "v1.0-2-gabc".toList "v".toList "1.0+2.gabc".toList false
    (by decide) (by decide) '+' (by decide)

end Versioneer
